import Mathlib

/-!
Shallow embedding of the MerkleDB content-addressable store (Go sources:
commit.go, storage.go, store.go, object.go, workspace.go, mock storage)
and proofs about its canonical serialization, hashing plumbing, commit
construction and workspace staging behaviour.

Modelling conventions: serialized data is a Lean `String` (Go `[]byte`
holding UTF-8 text); raw digests are `List Nat` byte lists; the external
SHA-256 function from `crypto/sha256` is a parameter constrained by the
hypotheses that matter (32-byte output, bytes below 256); Go `error`
values are the inductive `GoError`, with `fmt.Errorf("...: %w", e)`
modelled by `GoError.wrap`; Go string order (`sort.Strings`, byte-wise
lexicographic) is modelled by `String ≤`, which agrees with byte order on
UTF-8 text.
-/

namespace MerkleDB

/-- Go error values as this repository observes them: the `ErrNotFound`
sentinel from storage.go, `encoding/hex` decode failures, plain
`errors.New`/`fmt.Errorf` messages, and wrapping via `%w`. -/
inductive GoError where
  | notFound
  | hexInvalidByte (c : Char)
  | hexLength
  | msg (s : String)
  | wrap (s : String) (e : GoError)
deriving DecidableEq, Repr, BEq

/-- Model of Go `errors.Is`: compares against the target sentinel, walking
the `%w` wrap chain. -/
def errIs (e target : GoError) : Bool :=
  e == target ||
    match e with
    | .wrap _ inner => errIs inner target
    | _ => false

/-- Lowercase hexadecimal digit table, shared by `encoding/hex` and the
`encoding/json` escaper. -/
def hexDigit (n : Nat) : Char :=
  "0123456789abcdef".data.getD n '0'

/-- Escaping of a single character by Go `encoding/json` (HTML escaping on,
as `json.Marshal` uses): quote, backslash, the `\n`/`\r`/`\t` shorthands,
`<` `>` `&` and other control characters as `\u00xx`, and the line and
paragraph separators U+2028/U+2029 as ` `/` `. -/
def escChar (c : Char) : List Char :=
  if c = '"' then ['\\', '"']
  else if c = '\\' then ['\\', '\\']
  else if c = '\n' then ['\\', 'n']
  else if c = '\r' then ['\\', 'r']
  else if c = '\t' then ['\\', 't']
  else if c = '<' ∨ c = '>' ∨ c = '&' ∨ c.toNat < 32 then
    ['\\', 'u', '0', '0', hexDigit (c.toNat / 16), hexDigit (c.toNat % 16)]
  else if c.toNat = 8232 then ['\\', 'u', '2', '0', '2', '8']
  else if c.toNat = 8233 then ['\\', 'u', '2', '0', '2', '9']
  else [c]

/-- Model of `json.Marshal` applied to a Go string: the escaped character
sequence between double quotes. This never fails in Go. -/
def jsonQuote (s : String) : String :=
  String.mk ('"' :: s.data.flatMap escChar ++ ['"'])

/-- Tail of the serialization loop in `Tree.Serialize`: every element after
the first is preceded by a comma (`if i > 0 \x7b b.WriteString(",") \x7d`). -/
def goCommaTail : List String → String
  | [] => ""
  | q :: rest => "," ++ q ++ goCommaTail rest

/-- Comma joining exactly as the Go loop performs it: first element bare,
later elements preceded by commas. -/
def goCommaJoin : List String → String
  | [] => ""
  | p :: rest => p ++ goCommaTail rest

/-- Joining of successive pieces with a comma, as the spec phrases it. -/
def joinComma : List String → String
  | [] => ""
  | [x] => x
  | x :: y :: rest => x ++ "," ++ joinComma (y :: rest)

/-- Tree from commit.go: a named mapping from entry names to hashes. The Go
`map[string]string` is modelled as an association list whose update
operation keeps keys unique. -/
structure Tree where
  Entries : List (String × String)
deriving DecidableEq, Repr

/-- NewTree from commit.go: the empty tree. -/
def NewTree : Tree := ⟨[]⟩

/-- Go map assignment `m[k] = v`: any existing binding of `k` is replaced. -/
def mapSet (l : List (String × String)) (k v : String) :
    List (String × String) :=
  l.filter (fun p => p.1 != k) ++ [(k, v)]

/-- Go map read `m[k]`; an absent key yields the zero value `""`, which
`Tree.Serialize` never hits because it only reads keys of the map. -/
def mapGet (l : List (String × String)) (k : String) : String :=
  ((l.find? (fun p => p.1 == k)).map Prod.snd).getD ""

/-- Lexicographic at-most comparison of character lists by code point; on
UTF-8 text this coincides with the byte-wise lexicographic order Go string
comparison uses. -/
def charListLe : List Char → List Char → Bool
  | [], _ => true
  | _ :: _, [] => false
  | a :: as, b :: bs =>
    if a < b then true
    else if a = b then charListLe as bs
    else false

/-- Byte-wise lexicographic at-most on strings, the order of
`sort.Strings`. -/
def strLe (a b : String) : Bool := charListLe a.data b.data

/-- Sorting of the key slice, modelling `sort.Strings`. -/
def sortStrings (l : List String) : List String :=
  List.insertionSort (fun a b => strLe a b = true) l

/-- Key slice built by the `for k := range t.Entries` loop. -/
def treeKeys (t : Tree) : List String := t.Entries.map Prod.fst

/-- Canonical bytes built by the body of `Tree.Serialize` (commit.go):
collect the keys, sort them, write `jsonQuote key ++ ":" ++ jsonQuote
value` for each key joined by commas, between braces. -/
def treeBytes (t : Tree) : String :=
  "\x7b" ++
    goCommaJoin ((sortStrings (treeKeys t)).map
      (fun key => jsonQuote key ++ ":" ++ jsonQuote (mapGet t.Entries key))) ++
    "\x7d"

/-- Translation of `Tree.Serialize` (commit.go); the returned error is
always `nil`. -/
def Tree.Serialize (t : Tree) : Except GoError String :=
  .ok (treeBytes t)

/-- Serialization as §4.3 of the spec describes it, written independently of
the source loop: sort the keys byte-wise lexicographically, emit each
JSON-escaped key, a colon, and the JSON-escaped hash, join successive pairs
with a comma, and wrap the sequence in braces. -/
def treeSerializeSpec (t : Tree) : String :=
  "\x7b" ++
    joinComma ((sortStrings (treeKeys t)).map
      (fun k => jsonQuote k ++ ":" ++ jsonQuote (mapGet t.Entries k))) ++
    "\x7d"

theorem goCommaTail_cons_eq (y : String) (rest : List String) :
    goCommaTail (y :: rest) = "," ++ goCommaJoin (y :: rest) := by
  simp [goCommaTail, goCommaJoin, String.append_assoc]

theorem goCommaJoin_eq_joinComma (l : List String) :
    goCommaJoin l = joinComma l := by
  induction l with
  | nil => rfl
  | cons x rest ih =>
    cases rest with
    | nil => simp [goCommaJoin, goCommaTail, joinComma]
    | cons y rest2 =>
      rw [joinComma]
      rw [← ih]
      rw [goCommaJoin, goCommaTail_cons_eq]
      rw [String.append_assoc]

/-- Hex encoding of a byte list, character level (`hex.EncodeToString`):
two lowercase hex digits per byte. -/
def hexEncodeChars : List Nat → List Char
  | [] => []
  | b :: bs => hexDigit (b / 16) :: hexDigit (b % 16) :: hexEncodeChars bs

/-- Model of `hex.EncodeToString` on raw digest bytes. -/
def hexEncode (bs : List Nat) : String := String.mk (hexEncodeChars bs)

/-- Value of one hex digit character, as Go `fromHexChar`: accepts the
ranges 0-9, a-f and A-F. -/
def fromHexChar (c : Char) : Option Nat :=
  if '0' ≤ c ∧ c ≤ '9' then some (c.toNat - '0'.toNat)
  else if 'a' ≤ c ∧ c ≤ 'f' then some (c.toNat - 'a'.toNat + 10)
  else if 'A' ≤ c ∧ c ≤ 'F' then some (c.toNat - 'A'.toNat + 10)
  else none

/-- Pairwise decoding loop of `hex.DecodeString`: each digit pair gives one
byte, the first invalid character is reported as an invalid-byte error, and
a trailing odd digit gives the length error. -/
def hexDecodeChars : List Char → Except GoError (List Nat)
  | [] => .ok []
  | [c] =>
    match fromHexChar c with
    | none => .error (.hexInvalidByte c)
    | some _ => .error .hexLength
  | c1 :: c2 :: rest =>
    match fromHexChar c1 with
    | none => .error (.hexInvalidByte c1)
    | some a =>
      match fromHexChar c2 with
      | none => .error (.hexInvalidByte c2)
      | some b =>
        match hexDecodeChars rest with
        | .error e => .error e
        | .ok bs => .ok ((a * 16 + b) :: bs)

/-- Model of `hex.DecodeString`. -/
def hexDecode (s : String) : Except GoError (List Nat) := hexDecodeChars s.data

/-- Storage interface (storage.go): the byte-oriented key-value backend.
The backend state σ is threaded explicitly; `put` returns its result
together with the possibly-updated state, while `get` and `existsKey`
(Go `Exists`) are reads. -/
structure Storage (σ : Type) where
  put : σ → List Nat → String → Except GoError Unit × σ
  get : σ → List Nat → Except GoError String
  existsKey : σ → List Nat → Except GoError Bool

/-- Object interface (object.go): a record is characterized by its
`Serialize` capability, which may fail. -/
structure Object where
  Serialize : Except GoError String

/-- ObjectStore (store.go): wraps a storage backend. -/
structure ObjectStore (σ : Type) where
  storage : Storage σ

/-- NewObjectStore from store.go. -/
def NewObjectStore {σ : Type} (storage : Storage σ) : ObjectStore σ :=
  ⟨storage⟩

/-- Translation of `ObjectStore.WriteObject`: serialize the object, digest
the bytes with SHA-256 (the `sha` parameter models `crypto/sha256`), put
the data under the raw digest bytes, and return the hex digest. No
existence check is made before the put. -/
def ObjectStore.WriteObject {σ : Type} (s : ObjectStore σ)
    (sha : String → List Nat) (st : σ) (obj : Object) :
    Except GoError String × σ :=
  match obj.Serialize with
  | .error e => (.error (.wrap "failed to serialize object" e), st)
  | .ok data =>
    match s.storage.put st (sha data) data with
    | (.error e, st2) => (.error (.wrap "failed to store object" e), st2)
    | (.ok _, st2) => (.ok (hexEncode (sha data)), st2)

/-- Translation of `ObjectStore.ReadRawObject`: decode the hex hash to raw
digest bytes and fetch the stored bytes from the backend, wrapping either
failure with call-site context. -/
def ObjectStore.ReadRawObject {σ : Type} (s : ObjectStore σ) (st : σ)
    (hash : String) : Except GoError String :=
  match hexDecode hash with
  | .error e => .error (.wrap "failed to decode hash" e)
  | .ok hashBytes =>
    match s.storage.get st hashBytes with
    | .error e => .error (.wrap "failed to read object" e)
    | .ok data => .ok data

/-- State of the in-memory mock storage from the tests: raw key bytes
mapped to stored values (Go keys the map by `string(key)`). -/
def MockState : Type := List (List Nat × String)

/-- Put of the mock storage: always succeeds, replacing any prior value. -/
def mockPut (st : MockState) (key : List Nat) (value : String) :
    Except GoError Unit × MockState :=
  (.ok (), List.filter (fun p => p.1 != key) st ++ [(key, value)])

/-- Get of the mock storage: `ErrNotFound` when the key is absent. -/
def mockGet (st : MockState) (key : List Nat) : Except GoError String :=
  match List.find? (fun p => p.1 == key) st with
  | none => .error .notFound
  | some p => .ok p.2

/-- Exists of the mock storage. -/
def mockExistsKey (st : MockState) (key : List Nat) : Except GoError Bool :=
  .ok (List.any st (fun p => p.1 == key))

/-- The mock storage backend of the test suite, as a `Storage` value. -/
def MockStorage : Storage MockState := ⟨mockPut, mockGet, mockExistsKey⟩

/-- A backend whose put always fails without mutating anything, for
exercising the failure paths the error-handling contract describes. -/
def FlakyStorage : Storage Unit :=
  ⟨fun _ _ _ => (.error (.msg "boom"), ()),
   fun _ _ => .error .notFound,
   fun _ _ => .ok false⟩

/-- Commit (commit.go): snapshot metadata. The Go `time.Time` field is
modelled by the RFC 3339 UTC string `json.Marshal` renders it to. -/
structure Commit where
  TreeHash : String
  ParentHashes : List String
  Message : String
  Timestamp : String
deriving DecidableEq, Repr

/-- Model of `json.Marshal` applied to a Go string slice: escaped strings
between brackets, comma separated. -/
def renderStrArr (xs : List String) : String :=
  "[" ++ goCommaJoin (xs.map jsonQuote) ++ "]"

/-- Bytes produced by `json.Marshal` on a Commit struct whose parent slice
is non-nil and whose timestamp year lies inside [0,9999]: the tagged
fields in declaration order `tree`, `parents`, `message`, `timestamp`.
The full marshal behaviour, covering the nil slice and the out-of-range
year, is `CommitValue.Serialize`; `commit_serialize_agrees` proves the two
coincide on this fragment. -/
def commitBytes (c : Commit) : String :=
  "\x7b\"tree\":" ++ jsonQuote c.TreeHash ++
    ",\"parents\":" ++ renderStrArr c.ParentHashes ++
    ",\"message\":" ++ jsonQuote c.Message ++
    ",\"timestamp\":" ++ jsonQuote c.Timestamp ++ "\x7d"

/-- Translation of `Commit.Serialize` (commit.go) restricted to the
fragment the `Commit` structure represents — non-nil parents and a
timestamp `json.Marshal` accepts — on which the marshal cannot fail; the
unrestricted translation is `CommitValue.Serialize`. -/
def Commit.Serialize (c : Commit) : Except GoError String :=
  .ok (commitBytes c)

/-- Model of Go `time.Time` for marshaling purposes: its year together
with the strict RFC 3339 UTC rendering `json.Marshal` would emit. -/
structure GoTime where
  year : Int
  rendered : String
deriving DecidableEq, Repr

/-- Model of `time.Time.MarshalJSON`: the quoted strict RFC 3339
rendering, failing when the year lies outside [0,9999]. -/
def timeMarshalJSON (t : GoTime) : Except GoError String :=
  if t.year < 0 ∨ 10000 ≤ t.year then
    .error (.msg "Time.MarshalJSON: year outside of range [0,9999]")
  else .ok (jsonQuote t.rendered)

/-- Model of `json.Marshal` applied to a Go string slice including the nil
slice, which renders as `null`; `none` stands for the nil slice. -/
def renderStrSliceOpt : Option (List String) → String
  | none => "null"
  | some xs => renderStrArr xs

/-- Commit value as Go can actually form it: the parent slice may be nil
(`none`) and the timestamp carries its year, so both `json.Marshal`
behaviours dropped by the plain `Commit` model are representable. -/
structure CommitValue where
  TreeHash : String
  ParentHashes : Option (List String)
  Message : String
  Timestamp : GoTime
deriving DecidableEq, Repr

/-- Unrestricted translation of `Commit.Serialize` (commit.go), i.e.
`json.Marshal` on the Commit struct: tagged fields in declaration order,
a nil parent slice rendered as `null`, and failure — wrapped the way the
json package wraps a Marshaler error — when the timestamp year lies
outside [0,9999]. -/
def CommitValue.Serialize (c : CommitValue) : Except GoError String :=
  match timeMarshalJSON c.Timestamp with
  | .error e =>
    .error (.wrap "json: error calling MarshalJSON for type time.Time" e)
  | .ok ts =>
    .ok ("\x7b\"tree\":" ++ jsonQuote c.TreeHash ++
      ",\"parents\":" ++ renderStrSliceOpt c.ParentHashes ++
      ",\"message\":" ++ jsonQuote c.Message ++
      ",\"timestamp\":" ++ ts ++ "\x7d")

/-- View of a Tree as a storable Object, as the Go interface dispatch does. -/
def Tree.toObject (t : Tree) : Object := ⟨t.Serialize⟩

/-- View of a Commit as a storable Object. -/
def Commit.toObject (c : Commit) : Object := ⟨c.Serialize⟩

/-- Translation of `CreateCommit` (commit.go): reject a nil store, build a
commit from the supplied fields and the current UTC time (the `now`
parameter models `time.Now().UTC()`), write it through the object store
and return its hash. -/
def CreateCommit {σ : Type} (sha : String → List Nat)
    (store : Option (ObjectStore σ)) (st : σ) (treeHash message : String)
    (parentHashes : List String) (now : String) :
    Except GoError String × σ :=
  match store with
  | none => (.error (.msg "object store cannot be nil"), st)
  | some s =>
    let commit : Commit := ⟨treeHash, parentHashes, message, now⟩
    match s.WriteObject sha st commit.toObject with
    | (.error e, st2) => (.error (.wrap "failed to write commit" e), st2)
    | (.ok hash, st2) => (.ok hash, st2)

/-- Workspace (workspace.go): a store handle plus the in-memory staging
tree. -/
structure Workspace (σ : Type) where
  store : ObjectStore σ
  tree : Tree

/-- NewWorkspace (workspace.go): rejects a nil store, otherwise starts
with an empty staging tree. -/
def NewWorkspace {σ : Type} (store : Option (ObjectStore σ)) :
    Except GoError (Workspace σ) :=
  match store with
  | none => .error (.msg "object store cannot be nil")
  | some s => .ok ⟨s, NewTree⟩

/-- Translation of `Workspace.Add`: write the object through the store, and
on success record name → hash in the staging tree; on failure the
workspace is untouched. -/
def Workspace.Add {σ : Type} (w : Workspace σ) (sha : String → List Nat)
    (st : σ) (name : String) (obj : Object) :
    Except GoError Unit × σ × Workspace σ :=
  match w.store.WriteObject sha st obj with
  | (.error e, st2) =>
    (.error (.wrap ("failed to write object " ++ name) e), st2, w)
  | (.ok hash, st2) =>
    (.ok (), st2, ⟨w.store, ⟨mapSet w.tree.Entries name hash⟩⟩)

/-- Translation of `Workspace.Commit`: write the staging tree through the
store, then create a commit pointing at the resulting tree hash. The
staging tree is returned unchanged in every branch, as the source never
reassigns it. -/
def Workspace.Commit {σ : Type} (w : Workspace σ) (sha : String → List Nat)
    (st : σ) (message : String) (parentHashes : List String) (now : String) :
    Except GoError String × σ × Workspace σ :=
  match w.store.WriteObject sha st w.tree.toObject with
  | (.error e, st2) => (.error (.wrap "failed to write tree" e), st2, w)
  | (.ok treeHash, st2) =>
    match CreateCommit sha (some w.store) st2 treeHash message parentHashes now with
    | (.error e, st3) => (.error (.wrap "failed to create commit" e), st3, w)
    | (.ok commitHash, st3) => (.ok commitHash, st3, w)

/-- Unescaping of a JSON string body, for decoding checks modelling what
`json.Unmarshal` recovers from the commit wire format: consumes characters
up to the closing quote. -/
def parseStrBody : List Char → List Char → Option (String × List Char)
  | acc, '"' :: rest => some (String.mk acc.reverse, rest)
  | acc, '\\' :: 'u' :: h1 :: h2 :: h3 :: h4 :: rest =>
    match fromHexChar h1, fromHexChar h2, fromHexChar h3, fromHexChar h4 with
    | some a, some b, some c, some d =>
      parseStrBody (Char.ofNat (((a * 16 + b) * 16 + c) * 16 + d) :: acc) rest
    | _, _, _, _ => none
  | acc, '\\' :: e :: rest =>
    if e = '"' then parseStrBody ('"' :: acc) rest
    else if e = '\\' then parseStrBody ('\\' :: acc) rest
    else if e = 'n' then parseStrBody ('\n' :: acc) rest
    else if e = 'r' then parseStrBody ('\r' :: acc) rest
    else if e = 't' then parseStrBody ('\t' :: acc) rest
    else none
  | acc, c :: rest => parseStrBody (c :: acc) rest
  | _, [] => none

/-- Element loop for parsing a JSON array of strings; fuel bounds the
recursion. -/
def parseArrElems : Nat → List Char → List String → Option (List String × List Char)
  | 0, _, _ => none
  | fuel + 1, cs, acc =>
    match cs with
    | '"' :: rest =>
      match parseStrBody [] rest with
      | none => none
      | some (s, rest2) =>
        match rest2 with
        | ',' :: rest3 => parseArrElems fuel rest3 (s :: acc)
        | ']' :: rest3 => some ((s :: acc).reverse, rest3)
        | _ => none
    | _ => none

/-- Parsing of a JSON array of strings. -/
def parseStrArr (cs : List Char) : Option (List String × List Char) :=
  match cs with
  | '[' :: ']' :: rest => some ([], rest)
  | '[' :: rest => parseArrElems (rest.length + 1) rest []
  | _ => none

/-- Scanning for a marker substring, returning what follows it. -/
def dropAfterMarker (marker : List Char) : List Char → Option (List Char)
  | [] => if marker = [] then some [] else none
  | c :: rest =>
    if List.isPrefixOf marker (c :: rest) then
      some (List.drop marker.length (c :: rest))
    else dropAfterMarker marker rest

/-- Decoding of the `parents` field from serialized commit bytes, as
`json.Unmarshal` recovers it in the tests. -/
def parseParents (s : String) : Option (List String) :=
  match dropAfterMarker ("\"parents\":".data) s.data with
  | none => none
  | some rest => (parseStrArr rest).map Prod.fst

/-- Building a tree by performing the Go map assignments
`t.Entries[name] = hash` in the order the list gives them. -/
def Tree.insertAll (t : Tree) (l : List (String × String)) : Tree :=
  l.foldl (fun acc p => ⟨mapSet acc.Entries p.1 p.2⟩) t

/-- Whether a string is accepted by `hex.DecodeString`: every character is
a hex digit and the length is even. -/
def validHex (s : String) : Bool :=
  s.data.all (fun c => (fromHexChar c).isSome) && s.data.length % 2 == 0

/-- Flat JSON values, sufficient to state the commit wire format the spec
describes. -/
inductive Jval where
  | str (s : String)
  | arrStr (xs : List String)

/-- Rendering of a flat JSON value. -/
def renderJval : Jval → String
  | .str s => jsonQuote s
  | .arrStr xs => "[" ++ joinComma (xs.map jsonQuote) ++ "]"

/-- Rendering of a JSON object holding the given fields in the given
order, with no whitespace. -/
def renderJobj (fields : List (String × Jval)) : String :=
  "\x7b" ++
    joinComma (fields.map (fun f => jsonQuote f.1 ++ ":" ++ renderJval f.2)) ++
    "\x7d"

theorem charListLe_total : ∀ as bs : List Char,
    charListLe as bs = true ∨ charListLe bs as = true
  | [], _ => by left; rfl
  | _ :: _, [] => by right; rfl
  | a :: as, b :: bs => by
    rcases lt_trichotomy a b with h | h | h
    · left
      simp [charListLe, h]
    · subst h
      rcases charListLe_total as bs with ih | ih
      · left
        simp [charListLe, ih]
      · right
        simp [charListLe, ih]
    · right
      simp [charListLe, h]

theorem charListLe_trans : ∀ as bs cs : List Char,
    charListLe as bs = true → charListLe bs cs = true →
    charListLe as cs = true
  | [], _, _, _, _ => rfl
  | _ :: _, [], _, h1, _ => by simp [charListLe] at h1
  | _ :: _, _ :: _, [], _, h2 => by simp [charListLe] at h2
  | a :: as, b :: bs, c :: cs, h1, h2 => by
    simp only [charListLe] at h1 h2 ⊢
    by_cases hab : a < b
    · by_cases hbc : b < c
      · simp [lt_trans hab hbc]
      · by_cases hbc2 : b = c
        · subst hbc2
          simp [hab]
        · simp [hbc, hbc2] at h2
    · by_cases hab2 : a = b
      · subst hab2
        simp [hab] at h1
        by_cases hbc : a < c
        · simp [hbc]
        · by_cases hbc2 : a = c
          · subst hbc2
            simp [hbc] at h2 ⊢
            exact charListLe_trans as bs cs h1 h2
          · simp [hbc, hbc2] at h2
      · simp [hab, hab2] at h1

theorem charListLe_antisymm : ∀ as bs : List Char,
    charListLe as bs = true → charListLe bs as = true → as = bs
  | [], [], _, _ => rfl
  | [], _ :: _, _, h2 => by simp [charListLe] at h2
  | _ :: _, [], h1, _ => by simp [charListLe] at h1
  | a :: as, b :: bs, h1, h2 => by
    simp only [charListLe] at h1 h2
    by_cases hab : a < b
    · have h2f : ¬ b < a := lt_asymm hab
      have h2e : ¬ b = a := fun he => absurd (he ▸ hab) (lt_irrefl a)
      simp [h2f, h2e] at h2
    · by_cases hab2 : a = b
      · subst hab2
        simp [hab] at h1 h2
        rw [charListLe_antisymm as bs h1 h2]
      · simp [hab, hab2] at h1

theorem strLe_total (a b : String) : strLe a b = true ∨ strLe b a = true :=
  charListLe_total a.data b.data

theorem strLe_trans {a b c : String} (h1 : strLe a b = true)
    (h2 : strLe b c = true) : strLe a c = true :=
  charListLe_trans a.data b.data c.data h1 h2

theorem strLe_antisymm {a b : String} (h1 : strLe a b = true)
    (h2 : strLe b a = true) : a = b :=
  String.ext (charListLe_antisymm a.data b.data h1 h2)

instance : IsTotal String (fun a b => strLe a b = true) :=
  ⟨strLe_total⟩

instance : IsTrans String (fun a b => strLe a b = true) :=
  ⟨fun _ _ _ => strLe_trans⟩

instance : IsAntisymm String (fun a b => strLe a b = true) :=
  ⟨fun _ _ => strLe_antisymm⟩

theorem sortStrings_perm_eq {l1 l2 : List String} (h : l1.Perm l2) :
    sortStrings l1 = sortStrings l2 :=
  List.eq_of_perm_of_sorted
    (((List.perm_insertionSort _ l1).trans h).trans
      (List.perm_insertionSort _ l2).symm)
    (List.sorted_insertionSort _ l1) (List.sorted_insertionSort _ l2)

theorem find?_perm_of_nodup_keys {l1 l2 : List (String × String)}
    (hp : l1.Perm l2) (hn : (l1.map Prod.fst).Nodup) (k : String) :
    List.find? (fun p => p.1 == k) l1 = List.find? (fun p => p.1 == k) l2 := by
  cases h1 : List.find? (fun p => p.1 == k) l1 with
  | none =>
    rw [List.find?_eq_none] at h1
    symm
    rw [List.find?_eq_none]
    intro x hx
    exact h1 x (hp.symm.subset hx)
  | some x =>
    have hpx := List.find?_some h1
    have hmx := List.mem_of_find?_eq_some h1
    cases h2 : List.find? (fun p => p.1 == k) l2 with
    | none =>
      rw [List.find?_eq_none] at h2
      exact absurd hpx (h2 x (hp.subset hmx))
    | some y =>
      have hpy := List.find?_some h2
      have hmy := hp.symm.subset (List.mem_of_find?_eq_some h2)
      have hk1 : x.1 = k := by simpa using hpx
      have hk2 : y.1 = k := by simpa using hpy
      have hxy : y = x :=
        List.inj_on_of_nodup_map hn hmy hmx (by rw [hk1, hk2])
      rw [hxy]

theorem mapGet_perm_of_nodup_keys {l1 l2 : List (String × String)}
    (hp : l1.Perm l2) (hn : (l1.map Prod.fst).Nodup) (k : String) :
    mapGet l1 k = mapGet l2 k := by
  unfold mapGet
  rw [find?_perm_of_nodup_keys hp hn k]

theorem treeBytes_congr {l1 l2 : List (String × String)}
    (hp : l1.Perm l2) (hn : (l1.map Prod.fst).Nodup) :
    treeBytes ⟨l1⟩ = treeBytes ⟨l2⟩ := by
  have hkeys : sortStrings (List.map Prod.fst l1) =
      sortStrings (List.map Prod.fst l2) :=
    sortStrings_perm_eq (hp.map Prod.fst)
  have hget : ∀ key, mapGet l1 key = mapGet l2 key :=
    fun k => mapGet_perm_of_nodup_keys hp hn k
  simp [treeBytes, treeKeys, hkeys, hget]

theorem filter_ne_key_eq {l : List (String × String)} {k : String}
    (h : ∀ p ∈ l, p.1 ≠ k) : List.filter (fun p => p.1 != k) l = l := by
  induction l with
  | nil => rfl
  | cons q rest ih =>
    have hq : (q.1 != k) = true := by
      simp only [bne_iff_ne, ne_eq]
      exact h q (List.mem_cons_self q rest)
    simp only [List.filter_cons, hq, if_true]
    rw [ih (fun p hp => h p (List.mem_cons_of_mem q hp))]

theorem insertAll_entries (l : List (String × String)) :
    ∀ acc : List (String × String), (l.map Prod.fst).Nodup →
    (∀ k ∈ acc.map Prod.fst, k ∉ l.map Prod.fst) →
    (Tree.insertAll ⟨acc⟩ l).Entries = acc ++ l := by
  induction l with
  | nil =>
    intro acc _ _
    simp [Tree.insertAll]
  | cons q rest ih =>
    intro acc hn hd
    have hkacc : ∀ p ∈ acc, p.1 ≠ q.1 := by
      intro p hp he
      exact hd p.1 (List.mem_map_of_mem Prod.fst hp)
        (by simp [he])
    have hstep : mapSet acc q.1 q.2 = acc ++ [q] := by
      rw [mapSet, filter_ne_key_eq hkacc]
    have hn2 : (rest.map Prod.fst).Nodup := by
      simp only [List.map_cons, List.nodup_cons] at hn
      exact hn.2
    have hknotin : q.1 ∉ rest.map Prod.fst := by
      simp only [List.map_cons, List.nodup_cons] at hn
      exact hn.1
    have hd2 : ∀ k ∈ (acc ++ [q]).map Prod.fst, k ∉ rest.map Prod.fst := by
      intro k hk
      simp only [List.map_append, List.mem_append, List.map_cons,
        List.map_nil, List.mem_singleton] at hk
      rcases hk with hk | hk
      · intro hmem
        exact hd k hk (by simp [hmem])
      · rw [hk]
        exact hknotin
    have hrec := ih (acc ++ [q]) hn2 hd2
    simp only [Tree.insertAll, List.foldl_cons] at hrec ⊢
    rw [hstep]
    rw [hrec]
    simp

/-- C1: for every Tree, `Serialize` returns exactly the bytes described by
the spec — all keys sorted byte-wise lexicographically, each key emitted as
JSON-escaped key, colon, JSON-escaped hash, pairs joined by commas, the
whole wrapped in braces with no other characters — and a Tree with empty
entries serializes to exactly the two bytes of an empty JSON object. -/
theorem tree_serialize_matches_spec :
    (∀ t : Tree, Tree.Serialize t = .ok (treeSerializeSpec t)) ∧
      Tree.Serialize ⟨[]⟩ = .ok "\x7b\x7d" := by
  constructor
  · intro t
    simp [Tree.Serialize, treeBytes, treeSerializeSpec, goCommaJoin_eq_joinComma]
  · rfl

/-- C2: trees built by inserting the same entries in any two orders give
byte-identical `Serialize` output, and the two-entry example serializes to
exactly the expected canonical bytes in either insertion order. -/
theorem tree_serialize_order_independent :
    (∀ l1 l2 : List (String × String), l1.Perm l2 →
      (l1.map Prod.fst).Nodup →
      Tree.Serialize (Tree.insertAll NewTree l1) =
        Tree.Serialize (Tree.insertAll NewTree l2)) ∧
    Tree.Serialize (Tree.insertAll NewTree
        [("file.txt", "hash_of_file"), ("data.csv", "hash_of_data")]) =
      .ok "\x7b\"data.csv\":\"hash_of_data\",\"file.txt\":\"hash_of_file\"\x7d" ∧
    Tree.Serialize (Tree.insertAll NewTree
        [("data.csv", "hash_of_data"), ("file.txt", "hash_of_file")]) =
      .ok "\x7b\"data.csv\":\"hash_of_data\",\"file.txt\":\"hash_of_file\"\x7d" := by
  refine ⟨?_, ?_, ?_⟩
  · intro l1 l2 hp hn
    have h1 : (Tree.insertAll NewTree l1).Entries = l1 :=
      insertAll_entries l1 [] hn (by simp)
    have h2 : (Tree.insertAll NewTree l2).Entries = l2 :=
      insertAll_entries l2 [] ((hp.map Prod.fst).nodup_iff.mp hn) (by simp)
    have e1 : Tree.insertAll NewTree l1 = (⟨l1⟩ : Tree) := congrArg Tree.mk h1
    have e2 : Tree.insertAll NewTree l2 = (⟨l2⟩ : Tree) := congrArg Tree.mk h2
    rw [e1, e2]
    unfold Tree.Serialize
    rw [treeBytes_congr hp hn]
  · rfl
  · rfl

/-- C10: `Tree.Serialize` is total — it returns a nil error for every tree,
whatever the keys and values hold — so `WriteObject` applied to a tree
never reaches the serialization-error branch: its result is either the hex
hash of the canonical bytes, or a wrapped backend store error. -/
theorem tree_serialize_total {σ : Type} :
    (∀ t : Tree, Tree.Serialize t = .ok (treeBytes t)) ∧
    ∀ (s : ObjectStore σ) (sha : String → List Nat) (st : σ) (t : Tree),
      (s.WriteObject sha st t.toObject).1 =
          .ok (hexEncode (sha (treeBytes t))) ∨
      ∃ e, (s.WriteObject sha st t.toObject).1 =
          .error (.wrap "failed to store object" e) := by
  constructor
  · intro t
    rfl
  · intro s sha st t
    unfold ObjectStore.WriteObject Tree.toObject Tree.Serialize
    cases hput : s.storage.put st (sha (treeBytes t)) (treeBytes t) with
    | mk r st2 =>
      cases r with
      | error e =>
        right
        exact ⟨e, by simp [hput]⟩
      | ok u =>
        left
        simp [hput]

theorem hexDigit_mem : ∀ n : Nat, n < 16 →
    hexDigit n ∈ "0123456789abcdef".data := by
  decide

theorem fromHexChar_hexDigit : ∀ n : Nat, n < 16 →
    fromHexChar (hexDigit n) = some n := by
  decide

theorem hexEncodeChars_length : ∀ bs : List Nat,
    (hexEncodeChars bs).length = 2 * bs.length
  | [] => rfl
  | b :: bs => by
    simp [hexEncodeChars, hexEncodeChars_length bs]
    omega

theorem hexEncodeChars_lower : ∀ bs : List Nat, (∀ b ∈ bs, b < 256) →
    ∀ c ∈ hexEncodeChars bs, c ∈ "0123456789abcdef".data
  | [], _, c, hc => by simp [hexEncodeChars] at hc
  | b :: bs, hb, c, hc => by
    have hblt : b < 256 := hb b (List.mem_cons_self b bs)
    rcases List.mem_cons.mp hc with h | h
    · rw [h]
      exact hexDigit_mem _ (Nat.div_lt_of_lt_mul hblt)
    rcases List.mem_cons.mp h with h2 | h2
    · rw [h2]
      exact hexDigit_mem _ (Nat.mod_lt _ (by norm_num))
    · exact hexEncodeChars_lower bs
        (fun x hx => hb x (List.mem_cons_of_mem b hx)) c h2

theorem hexDecode_hexEncode : ∀ bs : List Nat, (∀ b ∈ bs, b < 256) →
    hexDecodeChars (hexEncodeChars bs) = .ok bs
  | [], _ => rfl
  | b :: bs, hb => by
    have hblt : b < 256 := hb b (List.mem_cons_self b bs)
    have h1 : fromHexChar (hexDigit (b / 16)) = some (b / 16) :=
      fromHexChar_hexDigit _ (Nat.div_lt_of_lt_mul hblt)
    have h2 : fromHexChar (hexDigit (b % 16)) = some (b % 16) :=
      fromHexChar_hexDigit _ (Nat.mod_lt _ (by norm_num))
    have ih := hexDecode_hexEncode bs
      (fun x hx => hb x (List.mem_cons_of_mem b hx))
    simp [hexEncodeChars, hexDecodeChars, h1, h2, ih]
    omega

theorem hexDecodeChars_ok_valid : ∀ (cs : List Char) (bs : List Nat),
    hexDecodeChars cs = .ok bs →
    (cs.all (fun c => (fromHexChar c).isSome) && cs.length % 2 == 0) = true
  | [], _, _ => rfl
  | [c], bs, h => by
    cases hfc : fromHexChar c <;> simp [hexDecodeChars, hfc] at h
  | c1 :: c2 :: rest, bs, h => by
    cases hfc1 : fromHexChar c1 with
    | none => simp [hexDecodeChars, hfc1] at h
    | some a =>
      cases hfc2 : fromHexChar c2 with
      | none => simp [hexDecodeChars, hfc1, hfc2] at h
      | some b =>
        cases hrec : hexDecodeChars rest with
        | error e => simp [hexDecodeChars, hfc1, hfc2, hrec] at h
        | ok bs2 =>
          have ih := hexDecodeChars_ok_valid rest bs2 hrec
          simp only [Bool.and_eq_true, List.all_eq_true, beq_iff_eq] at ih ⊢
          have ih2 := ih.2
          refine ⟨?_, ?_⟩
          · intro x hx
            rcases List.mem_cons.mp hx with h1 | h1
            · rw [h1, hfc1]
              rfl
            rcases List.mem_cons.mp h1 with h2 | h2
            · rw [h2, hfc2]
              rfl
            · exact ih.1 x h2
          · simp only [List.length_cons]
            omega

theorem hexDecode_error_of_not_validHex {s : String}
    (h : validHex s = false) : ∃ e, hexDecode s = .error e := by
  cases hd : hexDecode s with
  | error e => exact ⟨e, rfl⟩
  | ok bs =>
    have hv : validHex s = true := hexDecodeChars_ok_valid s.data bs hd
    rw [hv] at h
    simp at h

/-- C3: for every object whose serialization succeeds with bytes `d`,
`WriteObject` stores `d` under the raw 32-byte digest as key, performing
no existence check, and returns the 64-character lowercase hex encoding
of the digest; a failing put is surfaced as a wrapped error. -/
theorem writeObject_stores_under_digest {σ : Type} (s : ObjectStore σ)
    (sha : String → List Nat) (st : σ) (obj : Object) (d : String)
    (hser : obj.Serialize = .ok d)
    (hlen : (sha d).length = 32)
    (hbytes : ∀ b ∈ sha d, b < 256) :
    (∀ st2, s.storage.put st (sha d) d = (.ok (), st2) →
      s.WriteObject sha st obj = (.ok (hexEncode (sha d)), st2)) ∧
    (∀ e st2, s.storage.put st (sha d) d = (.error e, st2) →
      s.WriteObject sha st obj =
        (.error (.wrap "failed to store object" e), st2)) ∧
    (hexEncode (sha d)).length = 64 ∧
    (∀ c ∈ (hexEncode (sha d)).data, c ∈ "0123456789abcdef".data) ∧
    (∀ exs : σ → List Nat → Except GoError Bool,
      ObjectStore.WriteObject ⟨⟨s.storage.put, s.storage.get, exs⟩⟩ sha st obj =
        s.WriteObject sha st obj) := by
  refine ⟨?_, ?_, ?_, ?_, ?_⟩
  · intro st2 hput
    simp [ObjectStore.WriteObject, hser, hput]
  · intro e st2 hput
    simp [ObjectStore.WriteObject, hser, hput]
  · simp [hexEncode, String.length, hexEncodeChars_length, hlen]
  · intro c hc
    exact hexEncodeChars_lower (sha d) hbytes c hc
  · intro exs
    rfl

theorem mock_get_after_put (st : MockState) (k : List Nat) (v : String) :
    mockGet ((mockPut st k v).2) k = .ok v := by
  have h1 : List.find? (fun p => p.1 == k)
      (List.filter (fun p => p.1 != k) st) = none := by
    rw [List.find?_eq_none]
    intro x hx
    have hne := (List.mem_filter.mp hx).2
    simpa using hne
  simp [mockPut, mockGet, List.find?_append, h1]

/-- C4: assuming the backend returns from Get exactly the value most
recently Put under the same key, `ReadRawObject` applied to the hash
returned by a successful `WriteObject` succeeds and returns the canonical
serialized bytes. -/
theorem readRawObject_roundtrip {σ : Type} (s : ObjectStore σ)
    (sha : String → List Nat) (st st2 : σ) (obj : Object) (d h : String)
    (hser : obj.Serialize = .ok d)
    (hbytes : ∀ b ∈ sha d, b < 256)
    (hget : ∀ k v st3, s.storage.put st k v = (.ok (), st3) →
      s.storage.get st3 k = .ok v)
    (hw : s.WriteObject sha st obj = (.ok h, st2)) :
    s.ReadRawObject st2 h = .ok d := by
  cases hput : s.storage.put st (sha d) d with
  | mk r st3 =>
    cases r with
    | error e =>
      have hwo : s.WriteObject sha st obj =
          (.error (.wrap "failed to store object" e), st3) := by
        simp [ObjectStore.WriteObject, hser, hput]
      rw [hwo] at hw
      simp at hw
    | ok u =>
      cases u
      have hwo : s.WriteObject sha st obj =
          (.ok (hexEncode (sha d)), st3) := by
        simp [ObjectStore.WriteObject, hser, hput]
      rw [hwo] at hw
      simp at hw
      obtain ⟨hh, hst⟩ := hw
      subst hst
      subst hh
      have hdec : hexDecodeChars (hexEncode (sha d)).data = .ok (sha d) :=
        hexDecode_hexEncode (sha d) hbytes
      simp [ObjectStore.ReadRawObject, hexDecode, hdec,
        hget (sha d) d st3 hput]

/-- C5: `ReadRawObject` fails with a wrapped decode error on every string
that is not valid hexadecimal, and on a well-formed hash whose digest
bytes are absent — the backend reporting its NotFound sentinel — it fails
with an error wrapping `ErrNotFound`, which `errors.Is` recovers; as a
total function it never panics. -/
theorem readRawObject_error_handling {σ : Type} (s : ObjectStore σ)
    (st : σ) :
    (∀ hash : String, validHex hash = false →
      ∃ e, s.ReadRawObject st hash =
        .error (.wrap "failed to decode hash" e)) ∧
    (∀ (hash : String) (bs : List Nat), hexDecode hash = .ok bs →
      s.storage.get st bs = .error .notFound →
      s.ReadRawObject st hash =
          .error (.wrap "failed to read object" .notFound) ∧
        errIs (.wrap "failed to read object" .notFound) .notFound = true) := by
  constructor
  · intro hash hv
    obtain ⟨e, he⟩ := hexDecode_error_of_not_validHex hv
    exact ⟨e, by simp [ObjectStore.ReadRawObject, he]⟩
  · intro hash bs hdec hget
    constructor
    · simp [ObjectStore.ReadRawObject, hdec, hget]
    · rfl

theorem writeObject_ok_shape {σ : Type} (s : ObjectStore σ)
    (sha : String → List Nat) (st : σ) (obj : Object) (d h : String)
    (st2 : σ) (hser : obj.Serialize = .ok d)
    (hw : s.WriteObject sha st obj = (.ok h, st2)) :
    h = hexEncode (sha d) ∧ s.storage.put st (sha d) d = (.ok (), st2) := by
  cases hput : s.storage.put st (sha d) d with
  | mk r st3 =>
    cases r with
    | error e =>
      have hwo : s.WriteObject sha st obj =
          (.error (.wrap "failed to store object" e), st3) := by
        simp [ObjectStore.WriteObject, hser, hput]
      rw [hwo] at hw
      simp at hw
    | ok u =>
      cases u
      have hwo : s.WriteObject sha st obj =
          (.ok (hexEncode (sha d)), st3) := by
        simp [ObjectStore.WriteObject, hser, hput]
      rw [hwo] at hw
      simp at hw
      obtain ⟨hh, hst⟩ := hw
      subst hst
      exact ⟨hh.symm, rfl⟩

/-- C6: `CreateCommit` rejects a nil store with an error, writing nothing;
for a non-nil store it writes through the object store a commit whose
tree hash, message and parent list are exactly the supplied arguments —
the parent list kept verbatim in order — and returns that commit's hash;
the serialized parent list `["p1", "p2"]` decodes back to exactly
`["p1", "p2"]`. -/
theorem createCommit_contract {σ : Type} (s : ObjectStore σ)
    (sha : String → List Nat) (st : σ) (treeHash message : String)
    (parentHashes : List String) (now : String) :
    CreateCommit sha (none : Option (ObjectStore σ)) st treeHash message
        parentHashes now = (.error (.msg "object store cannot be nil"), st) ∧
    (∀ st2, s.storage.put st
        (sha (commitBytes ⟨treeHash, parentHashes, message, now⟩))
        (commitBytes ⟨treeHash, parentHashes, message, now⟩) = (.ok (), st2) →
      CreateCommit sha (some s) st treeHash message parentHashes now =
        (.ok (hexEncode
          (sha (commitBytes ⟨treeHash, parentHashes, message, now⟩))), st2)) ∧
    parseParents (commitBytes ⟨"t", ["p1", "p2"], "m", "ts"⟩) =
      some ["p1", "p2"] := by
  refine ⟨rfl, ?_, ?_⟩
  · intro st2 hput
    simp [CreateCommit, ObjectStore.WriteObject, Commit.toObject,
      Commit.Serialize, hput]
  · rfl

theorem commit_serialize_agrees (c : Commit) (t : GoTime)
    (h0 : 0 ≤ t.year) (h1 : t.year < 10000)
    (ht : t.rendered = c.Timestamp) :
    CommitValue.Serialize ⟨c.TreeHash, some c.ParentHashes, c.Message, t⟩ =
      Commit.Serialize c := by
  have hc : ¬ (t.year < 0 ∨ 10000 ≤ t.year) := by omega
  simp [CommitValue.Serialize, timeMarshalJSON, hc, renderStrSliceOpt,
    Commit.Serialize, commitBytes, ht]

/-- C7 counterexample: Serialize does not produce a JSON object with
`parents` an array of strings for every commit value — with the timestamp
year 10000 the marshal fails outright, and with a nil parent slice it
renders `parents` as `null`, which the string-array decoder rejects. -/
theorem commit_wire_format_counterexample :
    CommitValue.Serialize ⟨"t", some ["p"], "m", ⟨10000, "x"⟩⟩ =
      .error (.wrap "json: error calling MarshalJSON for type time.Time"
        (.msg "Time.MarshalJSON: year outside of range [0,9999]")) ∧
    CommitValue.Serialize ⟨"t", none, "m", ⟨2026, "ts"⟩⟩ =
      .ok
        "\x7b\"tree\":\"t\",\"parents\":null,\"message\":\"m\",\"timestamp\":\"ts\"\x7d" ∧
    parseParents
        "\x7b\"tree\":\"t\",\"parents\":null,\"message\":\"m\",\"timestamp\":\"ts\"\x7d" =
      none :=
  ⟨rfl, rfl, rfl⟩

/-- C7 (amended): for every commit whose parent slice is non-nil and whose
timestamp year lies within [0,9999], Serialize produces a JSON object
with exactly the fields `tree` (a string), `parents` (an array of strings
in order), `message` (a string) and `timestamp` (the rendered UTC
timestamp string), in that fixed order. -/
theorem commit_wire_format_amended (treeHash : String)
    (parents : List String) (message : String) (t : GoTime)
    (h0 : 0 ≤ t.year) (h1 : t.year < 10000) :
    CommitValue.Serialize ⟨treeHash, some parents, message, t⟩ =
      .ok (renderJobj
        [("tree", .str treeHash), ("parents", .arrStr parents),
         ("message", .str message), ("timestamp", .str t.rendered)]) := by
  have hok : timeMarshalJSON t = .ok (jsonQuote t.rendered) := by
    have hc : ¬ (t.year < 0 ∨ 10000 ≤ t.year) := by omega
    simp [timeMarshalJSON, hc]
  have hqt : jsonQuote "tree" = "\"tree\"" := rfl
  have hqp : jsonQuote "parents" = "\"parents\"" := rfl
  have hqm : jsonQuote "message" = "\"message\"" := rfl
  have hqts : jsonQuote "timestamp" = "\"timestamp\"" := rfl
  simp only [CommitValue.Serialize, hok, renderStrSliceOpt, renderJobj,
    renderJval, List.map_cons, List.map_nil, joinComma, renderStrArr,
    goCommaJoin_eq_joinComma, hqt, hqp, hqm, hqts]
  apply congrArg Except.ok
  apply String.ext
  simp [String.data_append, List.append_assoc]

/-- C8: a successful `Workspace.Commit` leaves the staging tree exactly as
it was, so a subsequent successful `Add` yields a cumulative tree: the
original entries with the new name bound to the new object's hash, never
a fresh empty tree. -/
theorem workspace_commit_keeps_staging {σ : Type} (S : ObjectStore σ)
    (sha : String → List Nat) (t : Tree) (st : σ) (message : String)
    (parentHashes : List String) (now h : String) (st2 : σ)
    (w2 : Workspace σ)
    (hc : Workspace.Commit ⟨S, t⟩ sha st message parentHashes now =
      (.ok h, st2, w2)) :
    w2 = ⟨S, t⟩ ∧
    ∀ (name : String) (obj : Object) (d : String) (st3 : σ)
      (w3 : Workspace σ), obj.Serialize = .ok d →
      Workspace.Add w2 sha st2 name obj = (.ok (), st3, w3) →
      w3.tree.Entries = mapSet t.Entries name (hexEncode (sha d)) := by
  cases hWT : ObjectStore.WriteObject S sha st t.toObject with
  | mk r1 stA =>
    cases r1 with
    | error e =>
      have heq : Workspace.Commit ⟨S, t⟩ sha st message parentHashes now =
          (.error (.wrap "failed to write tree" e), stA, ⟨S, t⟩) := by
        simp [Workspace.Commit, hWT]
      rw [heq] at hc
      simp at hc
    | ok treeHash =>
      cases hCC : CreateCommit sha (some S) stA treeHash message
          parentHashes now with
      | mk r2 stB =>
        cases r2 with
        | error e =>
          have heq : Workspace.Commit ⟨S, t⟩ sha st message parentHashes
              now = (.error (.wrap "failed to create commit" e), stB,
                ⟨S, t⟩) := by
            simp [Workspace.Commit, hWT, hCC]
          rw [heq] at hc
          simp at hc
        | ok ch =>
          have heq : Workspace.Commit ⟨S, t⟩ sha st message parentHashes
              now = (.ok ch, stB, ⟨S, t⟩) := by
            simp [Workspace.Commit, hWT, hCC]
          rw [heq] at hc
          simp at hc
          obtain ⟨hch, hstB, hw2⟩ := hc
          rw [hstB] at hCC
          constructor
          · exact hw2.symm
          · intro name obj d st3 w3 hser hadd
            rw [← hw2] at hadd
            cases hW2 : ObjectStore.WriteObject S sha st2 obj with
            | mk r3 stC =>
              cases r3 with
              | error e =>
                have haeq : Workspace.Add ⟨S, t⟩ sha st2 name obj =
                    (.error (.wrap ("failed to write object " ++ name) e),
                      stC, ⟨S, t⟩) := by
                  simp [Workspace.Add, hW2]
                rw [haeq] at hadd
                simp at hadd
              | ok hsh =>
                have hshape := writeObject_ok_shape S sha st2 obj d hsh
                  stC hser hW2
                have haeq : Workspace.Add ⟨S, t⟩ sha st2 name obj =
                    (.ok (), stC, ⟨S, ⟨mapSet t.Entries name hsh⟩⟩) := by
                  simp [Workspace.Add, hW2]
                rw [haeq] at hadd
                simp at hadd
                obtain ⟨hstC, hw3⟩ := hadd
                rw [← hw3, hshape.1]

/-- C9: with a backend whose failed put does not mutate state, every
failing operation leaves everything unchanged: a failed `Add` returns the
original state and workspace; a failed tree write inside `Commit` aborts
with the backend state exactly as before (previously added records kept,
no commit object created); a failed commit write inside `CreateCommit`
returns an error and no hash, with the state unchanged. -/
theorem failing_ops_preserve_state {σ : Type} (S : ObjectStore σ)
    (sha : String → List Nat)
    (hput : ∀ st k v e st2, S.storage.put st k v = (.error e, st2) →
      st2 = st) :
    (∀ (t : Tree) (st : σ) (name : String) (obj : Object) (e : GoError)
      (st2 : σ) (w2 : Workspace σ),
      Workspace.Add ⟨S, t⟩ sha st name obj = (.error e, st2, w2) →
      st2 = st ∧ w2 = ⟨S, t⟩) ∧
    (∀ (t : Tree) (st : σ) (message : String) (parentHashes : List String)
      (now : String) (e : GoError) (st2 : σ),
      S.storage.put st (sha (treeBytes t)) (treeBytes t) =
        (.error e, st2) →
      Workspace.Commit ⟨S, t⟩ sha st message parentHashes now =
        (.error (.wrap "failed to write tree"
          (.wrap "failed to store object" e)), st, ⟨S, t⟩)) ∧
    (∀ (st : σ) (treeHash message : String) (parentHashes : List String)
      (now : String) (e : GoError) (st2 : σ),
      S.storage.put st
          (sha (commitBytes ⟨treeHash, parentHashes, message, now⟩))
          (commitBytes ⟨treeHash, parentHashes, message, now⟩) =
        (.error e, st2) →
      CreateCommit sha (some S) st treeHash message parentHashes now =
        (.error (.wrap "failed to write commit"
          (.wrap "failed to store object" e)), st)) := by
  refine ⟨?_, ?_, ?_⟩
  · intro t st name obj e st2 w2 hadd
    cases hser : obj.Serialize with
    | error e0 =>
      have haeq : Workspace.Add ⟨S, t⟩ sha st name obj =
          (.error (.wrap ("failed to write object " ++ name)
            (.wrap "failed to serialize object" e0)), st, ⟨S, t⟩) := by
        simp [Workspace.Add, ObjectStore.WriteObject, hser]
      rw [haeq] at hadd
      simp at hadd
      exact ⟨hadd.2.1.symm, hadd.2.2.symm⟩
    | ok d =>
      cases hput2 : S.storage.put st (sha d) d with
      | mk r stA =>
        cases r with
        | ok u =>
          cases u
          have haeq : Workspace.Add ⟨S, t⟩ sha st name obj =
              (.ok (), stA, ⟨S, ⟨mapSet t.Entries name
                (hexEncode (sha d))⟩⟩) := by
            simp [Workspace.Add, ObjectStore.WriteObject, hser, hput2]
          rw [haeq] at hadd
          simp at hadd
        | error e0 =>
          have hstA : stA = st := hput st (sha d) d e0 stA hput2
          have haeq : Workspace.Add ⟨S, t⟩ sha st name obj =
              (.error (.wrap ("failed to write object " ++ name)
                (.wrap "failed to store object" e0)), stA, ⟨S, t⟩) := by
            simp [Workspace.Add, ObjectStore.WriteObject, hser, hput2]
          rw [haeq] at hadd
          simp at hadd
          exact ⟨hadd.2.1.symm.trans hstA, hadd.2.2.symm⟩
  · intro t st message parentHashes now e st2 hputT
    have hst2 : st2 = st := hput st _ _ e st2 hputT
    rw [hst2] at hputT
    have hWT : ObjectStore.WriteObject S sha st t.toObject =
        (.error (.wrap "failed to store object" e), st) := by
      simp [ObjectStore.WriteObject, Tree.toObject, Tree.Serialize, hputT]
    simp [Workspace.Commit, hWT]
  · intro st treeHash message parentHashes now e st2 hputC
    have hst2 : st2 = st := hput st _ _ e st2 hputC
    rw [hst2] at hputC
    have hWC : ObjectStore.WriteObject S sha st
        (Commit.toObject ⟨treeHash, parentHashes, message, now⟩) =
        (.error (.wrap "failed to store object" e), st) := by
      simp [ObjectStore.WriteObject, Commit.toObject, Commit.Serialize,
        hputC]
    simp [CreateCommit, hWC]

/-- Witness for C2 at the concrete two-entry example. -/
theorem tree_serialize_order_independent_witness :
    Tree.Serialize (Tree.insertAll NewTree
        [("file.txt", "hash_of_file"), ("data.csv", "hash_of_data")]) =
      Tree.Serialize (Tree.insertAll NewTree
        [("data.csv", "hash_of_data"), ("file.txt", "hash_of_file")]) :=
  tree_serialize_order_independent.1
    [("file.txt", "hash_of_file"), ("data.csv", "hash_of_data")]
    [("data.csv", "hash_of_data"), ("file.txt", "hash_of_file")]
    (List.Perm.swap ("data.csv", "hash_of_data")
      ("file.txt", "hash_of_file") []) (by decide)

/-- Witness for C3: a concrete write through the mock storage. -/
theorem writeObject_stores_under_digest_witness :
    ObjectStore.WriteObject ⟨MockStorage⟩ (fun _ => List.range 32)
        ([] : MockState) ⟨.ok "hi"⟩ =
      (.ok (hexEncode (List.range 32)), [(List.range 32, "hi")]) :=
  (writeObject_stores_under_digest ⟨MockStorage⟩ (fun _ => List.range 32)
      [] ⟨.ok "hi"⟩ "hi" rfl (by simp) (by decide)).1
    [(List.range 32, "hi")] rfl

/-- Witness for C4: write an object, then read it back by its hash. -/
theorem readRawObject_roundtrip_witness :
    ObjectStore.ReadRawObject ⟨MockStorage⟩ [([0, 255], "hello")]
        (hexEncode [0, 255]) = .ok "hello" :=
  readRawObject_roundtrip ⟨MockStorage⟩ (fun _ => [0, 255]) []
    [([0, 255], "hello")] ⟨.ok "hello"⟩ "hello" (hexEncode [0, 255])
    rfl (by decide)
    (fun k v st3 hp => by
      have h2 : ((mockPut [] k v).2 : MockState) = st3 :=
        congrArg Prod.snd hp
      rw [← h2]
      exact mock_get_after_put [] k v)
    rfl

/-- Witness for C5: a non-hex hash, and an absent well-formed hash. -/
theorem readRawObject_error_handling_witness :
    (∃ e, ObjectStore.ReadRawObject ⟨MockStorage⟩ ([] : MockState) "zz" =
        .error (.wrap "failed to decode hash" e)) ∧
    (ObjectStore.ReadRawObject ⟨MockStorage⟩ ([] : MockState)
          (String.mk (List.replicate 64 'a')) =
        .error (.wrap "failed to read object" .notFound) ∧
      errIs (.wrap "failed to read object" .notFound) .notFound = true) :=
  ⟨(readRawObject_error_handling ⟨MockStorage⟩ []).1 "zz" rfl,
    (readRawObject_error_handling ⟨MockStorage⟩ []).2
      (String.mk (List.replicate 64 'a')) (List.replicate 32 170)
      rfl rfl⟩

/-- Witness for C6: a concrete commit written through the mock storage. -/
theorem createCommit_contract_witness :
    CreateCommit (fun _ => [1, 2]) (some ⟨MockStorage⟩) ([] : MockState)
        "t" "m" ["p1", "p2"] "ts" =
      (.ok (hexEncode [1, 2]),
        [([1, 2], commitBytes ⟨"t", ["p1", "p2"], "m", "ts"⟩)]) :=
  (createCommit_contract ⟨MockStorage⟩ (fun _ => [1, 2]) [] "t" "m"
      ["p1", "p2"] "ts").2.1
    [([1, 2], commitBytes ⟨"t", ["p1", "p2"], "m", "ts"⟩)] rfl

/-- Witness for C7 (amended) at a concrete in-range commit value. -/
theorem commit_wire_format_amended_witness :
    CommitValue.Serialize ⟨"t", some ["p1", "p2"], "m",
        ⟨2026, "2026-01-01T00:00:00Z"⟩⟩ =
      .ok (renderJobj
        [("tree", .str "t"), ("parents", .arrStr ["p1", "p2"]),
         ("message", .str "m"),
         ("timestamp", .str "2026-01-01T00:00:00Z")]) :=
  commit_wire_format_amended "t" ["p1", "p2"] "m"
    ⟨2026, "2026-01-01T00:00:00Z"⟩ (by decide) (by decide)

/-- Witness for C8: commit, then add, on the mock storage. -/
theorem workspace_commit_keeps_staging_witness :
    (⟨⟨MockStorage⟩, ⟨[("f", "03")]⟩⟩ : Workspace MockState).tree.Entries =
      mapSet NewTree.Entries "f" (hexEncode [3]) :=
  (workspace_commit_keeps_staging ⟨MockStorage⟩ (fun _ => [3]) NewTree []
      "m" [] "ts" "03"
      [([3],
        "\x7b\"tree\":\"03\",\"parents\":[],\"message\":\"m\",\"timestamp\":\"ts\"\x7d")]
      ⟨⟨MockStorage⟩, NewTree⟩ rfl).2
    "f" ⟨.ok "data"⟩ "data" [([3], "data")]
    ⟨⟨MockStorage⟩, ⟨[("f", "03")]⟩⟩ rfl rfl

/-- Witness for C9: failing operations against the flaky backend. -/
theorem failing_ops_preserve_state_witness :
    (() = () ∧ (⟨⟨FlakyStorage⟩, NewTree⟩ : Workspace Unit) =
        ⟨⟨FlakyStorage⟩, NewTree⟩) ∧
    Workspace.Commit ⟨⟨FlakyStorage⟩, NewTree⟩ (fun _ => [3]) () "m" []
        "ts" =
      (.error (.wrap "failed to write tree"
        (.wrap "failed to store object" (.msg "boom"))), (),
        ⟨⟨FlakyStorage⟩, NewTree⟩) ∧
    CreateCommit (fun _ => [3]) (some ⟨FlakyStorage⟩) () "t" "m" ["p1"]
        "ts" =
      (.error (.wrap "failed to write commit"
        (.wrap "failed to store object" (.msg "boom"))), ()) :=
  have hput : ∀ (st : Unit) (k : List Nat) (v : String) (e : GoError)
      (st2 : Unit),
      (⟨FlakyStorage⟩ : ObjectStore Unit).storage.put st k v =
        (.error e, st2) → st2 = st :=
    fun st _ _ _ st2 _ => by cases st; cases st2; rfl
  ⟨(failing_ops_preserve_state ⟨FlakyStorage⟩ (fun _ => [3]) hput).1
      NewTree () "obj1" ⟨.ok "d"⟩
      (.wrap ("failed to write object " ++ "obj1")
        (.wrap "failed to store object" (.msg "boom"))) ()
      ⟨⟨FlakyStorage⟩, NewTree⟩ rfl,
    (failing_ops_preserve_state ⟨FlakyStorage⟩ (fun _ => [3]) hput).2.1
      NewTree () "m" [] "ts" (.msg "boom") () rfl,
    (failing_ops_preserve_state ⟨FlakyStorage⟩ (fun _ => [3]) hput).2.2
      () "t" "m" ["p1"] "ts" (.msg "boom") () rfl⟩

end MerkleDB
